import Mathlib

/-!
Verification of `add_colors_to_csv.py` (MHAPalletizing).

Shallow embedding of the color-assignment engine `generate_color_for_product`
and of the CSV augmentation pipeline `add_colors_to_csv` / `main`, together
with theorems settling the specification claims.

Conventions of the embedding:
* Python unbounded integers are `Int`; Python `%` on ints with a positive
  modulus is `Int.emod` (both yield the representative in `[0, modulus)`),
  Python `>>` is an arithmetic shift, i.e. flooring division by a power of
  two (`Int.fdiv`), and `<<` is multiplication by a power of two.
* Python float arithmetic in the HSL→RGB conversion is modelled with exact
  rationals `ℚ`; every quantity involved is derived from small integers by
  `+ - * /`, `abs` and one `% 2` on a value in `[0, 6)`, and each claim
  proved about this part is robust to the tiny float rounding (the proved
  bounds hold with slack far exceeding double-precision error).
* Python `int()` applied to a float truncates toward zero; on an exact
  rational `q` this is T-division of the numerator by the denominator.
-/

/-- One step of the identifier hash from `generate_color_for_product`:
`hash_value = ord(char) + ((hash_value << 5) - hash_value)`, over Python's
unbounded integers.  The character code is `Char.toNat` (= Python `ord`). -/
def hashStep (h : Int) (c : Char) : Int :=
  (c.toNat : Int) + ((h * 2 ^ 5) - h)

/-- The hash accumulator of `generate_color_for_product` after consuming the
character list `l` (initial value `0`). -/
def hashAccL (l : List Char) : Int :=
  l.foldl hashStep 0

/-- The hash of a string identifier, as computed by the loop
`for char in str_id: hash_value = ord(char) + ((hash_value << 5) - hash_value)`. -/
def hashAcc (s : String) : Int :=
  hashAccL s.data

/-- Reinterpret an integer as a 32-bit signed two's-complement value
(in `[-2^31, 2^31)`).  Modelled from the spec: the spec demands that the
hash accumulator "behave as a 32-bit signed integer with wraparound". -/
def toSigned32 (n : Int) : Int :=
  (n + 2 ^ 31) % 2 ^ 32 - 2 ^ 31

/-- Modelled from the spec: the value "a 32-bit signed-integer hash
accumulator would hold" after each character update (the accumulator is
reduced to 32-bit signed form after every step, as the spec's mandated
masking would do). -/
def hashAcc32L (l : List Char) : Int :=
  l.foldl (fun h c => toSigned32 (hashStep h c)) 0

/-- 32-bit signed reference hash of a string (spec's demanded semantics). -/
def hashAcc32 (s : String) : Int :=
  hashAcc32L s.data

/-- `h = abs(hash_value % 360)` from `generate_color_for_product`. -/
def hueOf (s : String) : Int :=
  |hashAcc s % 360|

/-- `s = 65 + (abs(hash_value >> 8) % 20)` from `generate_color_for_product`. -/
def satOf (s : String) : Int :=
  65 + |Int.fdiv (hashAcc s) (2 ^ 8)| % 20

/-- `l = 55 + (abs(hash_value >> 16) % 15)` from `generate_color_for_product`. -/
def lightOf (s : String) : Int :=
  55 + |Int.fdiv (hashAcc s) (2 ^ 16)| % 15

/-- Python float `%` (`a % b = a - b * floor(a / b)`), used for
`(h / 60) % 2` in `generate_color_for_product`, in exact arithmetic. -/
def pyFmod (a b : ℚ) : ℚ :=
  a - b * ((⌊a / b⌋ : Int) : ℚ)

/-- Python `int()` on a (here: exact-rational) numeric value: truncation
toward zero, i.e. T-division of numerator by denominator. -/
def pyInt (q : ℚ) : Int :=
  Int.tdiv q.num (q.den : Int)

/-- `c = (1 - abs(2 * l / 100 - 1)) * s / 100` from
`generate_color_for_product` (`s`, `l` the integer saturation/lightness). -/
def chroma (s l : Int) : ℚ :=
  (1 - |2 * (l : ℚ) / 100 - 1|) * (s : ℚ) / 100

/-- `x = c * (1 - abs((h / 60) % 2 - 1))` from `generate_color_for_product`. -/
def xval (h : Int) (c : ℚ) : ℚ :=
  c * (1 - |pyFmod ((h : ℚ) / 60) 2 - 1|)

/-- `m = l / 100 - c / 2` from `generate_color_for_product`. -/
def mval (l : Int) (c : ℚ) : ℚ :=
  (l : ℚ) / 100 - c / 2

/-- The sextant selection `if h < 60: r, g, b = c, x, 0 ...` from
`generate_color_for_product`. -/
def basePoint (h : Int) (c x : ℚ) : ℚ × ℚ × ℚ :=
  if h < 60 then (c, x, 0)
  else if h < 120 then (x, c, 0)
  else if h < 180 then (0, c, x)
  else if h < 240 then (0, x, c)
  else if h < 300 then (x, 0, c)
  else (c, 0, x)

/-- The final channel quantisation `r = int((r + m) * 255)` (and likewise
`g`, `b`) from `generate_color_for_product`. -/
def channel (comp m : ℚ) : Int :=
  pyInt ((comp + m) * 255)

/-- HSL→RGB conversion exactly as laid out in `generate_color_for_product`
(lines 25–44 of `add_colors_to_csv.py`). -/
def hslToRgb (h s l : Int) : Int × Int × Int :=
  let c := chroma s l
  let x := xval h c
  let m := mval l c
  let (r, g, b) := basePoint h c x
  (channel r m, channel g m, channel b m)

/-- The integer RGB triple `generate_color_for_product` computes for an
identifier string. -/
def rgbOf (s : String) : Int × Int × Int :=
  hslToRgb (hueOf s) (satOf s) (lightOf s)

/-- Uppercase hexadecimal digit character for `n < 16`
(`'0'` = 48, `'A'` = 65 = 55 + 10). -/
def hexDigit (n : Nat) : Char :=
  if n < 10 then Char.ofNat (48 + n) else Char.ofNat (55 + n)

/-- The Python format specifier `{v:02X}` for the values that reach it here:
two uppercase hexadecimal digits, zero-padded.  Each channel is proved to
lie in `[0, 255]` (see the range theorems), on which this two-digit form is
exactly Python's `02X` output; `Int.toNat` is the identity on them. -/
def fmt02X (v : Int) : List Char :=
  [hexDigit (v.toNat / 16), hexDigit (v.toNat % 16)]

/-- The return value `f"#{r:02X}{g:02X}{b:02X}"` of
`generate_color_for_product`. -/
def generate_color_for_product (product_id : String) : String :=
  let (r, g, b) := rgbOf product_id
  String.mk ('#' :: (fmt02X r ++ fmt02X g ++ fmt02X b))

/-- The spec's name `colorFor` for the engine (§4.1 Contract). -/
def colorFor (s : String) : String :=
  generate_color_for_product s

/-- `generate_color_for_product` with every runtime-failure site of the
Python body made explicit: each division/modulus is guarded by a
zero-divisor check (the only exception a `ZeroDivisionError` could arise
from; `ord`, shifts, `abs`, formatting and the comparisons are total).
Totality of the engine is the statement that this always returns `.ok`. -/
def colorForE (s : String) : Except String String :=
  let h := hashAcc s
  if (360 : Int) = 0 then .error "ZeroDivisionError" else
  let hue := |h % 360|
  if (20 : Int) = 0 then .error "ZeroDivisionError" else
  let sat := 65 + |Int.fdiv h (2 ^ 8)| % 20
  if (15 : Int) = 0 then .error "ZeroDivisionError" else
  let lig := 55 + |Int.fdiv h (2 ^ 16)| % 15
  if (100 : ℚ) = 0 then .error "ZeroDivisionError" else
  let c := chroma sat lig
  if (60 : ℚ) = 0 ∨ (2 : ℚ) = 0 then .error "ZeroDivisionError" else
  let x := xval hue c
  if (100 : ℚ) = 0 ∨ (2 : ℚ) = 0 then .error "ZeroDivisionError" else
  let m := mval lig c
  let (r, g, b) := basePoint hue c x
  .ok (String.mk ('#' :: (fmt02X (channel r m) ++ fmt02X (channel g m) ++ fmt02X (channel b m))))

/-- Modelled from the spec: "truncated toward zero to an integer" — the
mathematical truncation the spec names (floor for nonnegative values,
ceiling for negative ones), to be compared with the code's `int()`. -/
def truncTowardZero (q : ℚ) : Int :=
  if 0 ≤ q then ⌊q⌋ else ⌈q⌉

/-- Modelled from the spec: the "round-to-nearest" conversion the spec
contrasts the code's truncation with. -/
def roundNearest (q : ℚ) : Int :=
  ⌊q + 1 / 2⌋

/-- The sixteen characters Python's uppercase-hex format `X` can emit. -/
def hexUpperChars : List Char :=
  "0123456789ABCDEF".data

/-! ## The CSV augmentation pipeline

`add_colors_to_csv.py` reads each table with `csv.DictReader` (each row a
dict binding exactly the header's field names, in order) and writes it
back with `csv.DictWriter`.  File I/O is replaced by `Table` values; all
row/dict manipulation follows the source. -/

/-- A row as `csv.DictReader` yields it: an ordered association of field
names to string values (a Python dict, keys in insertion order). -/
abbrev Row := List (String × String)

/-- Python dict lookup `row[k]`: the value of the (first) binding of `k`,
or `none` when the access would raise `KeyError`. -/
def dictGet (row : Row) (k : String) : Option String :=
  (row.find? (fun p => p.1 == k)).map Prod.snd

/-- Python dict assignment `row[k] = v`: overwrite the binding in place if
the key is present (dict keys are unique, so the first binding is the
binding), otherwise append the new binding in insertion order. -/
def dictSet : Row → String → String → Row
  | [], k, v => [(k, v)]
  | p :: r, k, v => if p.1 == k then (k, v) :: r else p :: dictSet r k v

/-- A CSV table: the header's field names and the rows. -/
structure Table where
  fieldnames : List String
  rows : List Row
deriving DecidableEq

/-- The shape `csv.DictReader` guarantees: distinct field names, and every
row binds exactly the schema's field names, in order. -/
def Table.WF (t : Table) : Prop :=
  t.fieldnames.Nodup ∧ ∀ r ∈ t.rows, r.map Prod.fst = t.fieldnames

instance (t : Table) : Decidable t.WF := by
  unfold Table.WF; infer_instance

/-- The loop of `add_colors_to_csv`: thread the per-run memo
`product_colors` through the rows, setting `row['Color']`; `.error k`
models an uncaught `KeyError` on key `k` (the second error branch, a
failing memo lookup right after the memo was filled, is unreachable). -/
def assignColors : List Row → List (String × String) →
    Except String (List Row × List (String × String))
  | [], pc => .ok ([], pc)
  | row :: rest, pc =>
    match dictGet row "ProductId" with
    | none => .error "ProductId"
    | some pid =>
      let pc' := if (dictGet pc pid).isSome then pc
                 else dictSet pc pid (generate_color_for_product pid)
      match dictGet pc' pid with
      | none => .error pid
      | some color =>
        match assignColors rest pc' with
        | .error k => .error k
        | .ok (rest', pcF) => .ok (dictSet row "Color" color :: rest', pcF)

/-- Outcome of `add_colors_to_csv` on one table: the early return when a
`Color` column already exists, an uncaught `KeyError`, or the augmented
table that is written out. -/
inductive AddResult where
  | alreadyAugmented
  | keyError (k : String)
  | ok (t : Table)
deriving DecidableEq

/-- What `csv.DictWriter.writerow` records for one row: the row's values
listed in schema order.  A field the row lacks is written as `restval`
(`None`, serialized as the empty string); rows reaching the writer here
bind exactly the schema's keys, so neither that default nor the
extra-key `ValueError` (both unreachable) affects the claims. -/
def writeRow (fields : List String) (row : Row) : Row :=
  fields.map (fun f => (f, (dictGet row f).getD ""))

/-- `add_colors_to_csv` on one table, file I/O replaced by table values:
return early if `Color` is already a field; otherwise run the color loop
and, on success, write the rows under the extended schema. -/
def add_colors_to_csv (t : Table) : AddResult :=
  if "Color" ∈ t.fieldnames then .alreadyAugmented
  else
    match assignColors t.rows [] with
    | .error k => .keyError k
    | .ok (rows', _) =>
      let fields' := t.fieldnames ++ ["Color"]
      .ok ⟨fields', rows'.map (writeRow fields')⟩

/-- The file state after running `add_colors_to_csv` on `t`: the file is
rewritten only on the success path — on `AlreadyAugmented` the function
returns before opening the file for writing, and an uncaught `KeyError`
aborts the function during the loop, before the write. -/
def fileAfter (t : Table) : Table :=
  match add_colors_to_csv t with
  | .ok t' => t'
  | _ => t

/-- `main`'s loop over the matched files: each table is processed in
order; an uncaught `KeyError` propagates out of `add_colors_to_csv`
(there is no `try`/`except` in `main`), terminating the program — the
failing table and every later one keep their current file state.  Returns
the final file states and the propagated exception, if any. -/
def runBatch : List Table → List Table × Option String
  | [] => ([], none)
  | t :: ts =>
    match add_colors_to_csv t with
    | .keyError k => (t :: ts, some k)
    | _ =>
      let (rest, e) := runBatch ts
      (fileAfter t :: rest, e)

/-! ### Concrete tables used as witnesses/counterexamples -/

/-- A table that already has a `Color` column. -/
def sampleAugmented : Table :=
  ⟨["ProductId", "Color"], [[("ProductId", "7"), ("Color", "#AAAAAA")]]⟩

/-- A two-row table with a repeated `ProductId`. -/
def sampleTwoRows : Table :=
  ⟨["ProductId"], [[("ProductId", "1")], [("ProductId", "1")]]⟩

/-- Its augmented output. -/
def sampleTwoRowsOut : Table :=
  ⟨["ProductId", "Color"],
   [[("ProductId", "1"), ("Color", "#D6BB41")],
    [("ProductId", "1"), ("Color", "#D6BB41")]]⟩

/-- A table whose rows lack the `ProductId` field. -/
def sampleNoProductId : Table :=
  ⟨["A"], [[("A", "x")]]⟩

/-- A table with a header but no rows. -/
def sampleNoRows : Table :=
  ⟨["ProductId"], []⟩

/-- A well-formed one-row table. -/
def sampleOneRow : Table :=
  ⟨["ProductId"], [[("ProductId", "1")]]⟩

/-- Its augmented output. -/
def sampleOneRowOut : Table :=
  ⟨["ProductId", "Color"], [[("ProductId", "1"), ("Color", "#D6BB41")]]⟩

/-! ## Basic facts about the hash accumulator -/

theorem hashStep_nonneg {h : Int} (hh : 0 ≤ h) (c : Char) : 0 ≤ hashStep h c := by
  have hc : (0 : Int) ≤ (c.toNat : Int) := Int.natCast_nonneg _
  unfold hashStep
  linarith

theorem foldl_hashStep_nonneg (l : List Char) : ∀ h : Int, 0 ≤ h → 0 ≤ l.foldl hashStep h := by
  induction l with
  | nil => intro h hh; simpa using hh
  | cons c t ih => intro h hh; exact ih _ (hashStep_nonneg hh c)

theorem hashAccL_nonneg (l : List Char) : 0 ≤ hashAccL l :=
  foldl_hashStep_nonneg l 0 le_rfl

theorem hashAcc_nonneg (s : String) : 0 ≤ hashAcc s :=
  hashAccL_nonneg s.data

/-- C10: for every string identifier, the hash accumulator of
`generate_color_for_product` is a nonnegative (unbounded) integer after
every character update — every intermediate accumulator is `hashAccL` of a
prefix, and all of these are nonnegative — hence the `abs()` applied to
`hash_value % 360`, to `hash_value >> 8` and to `hash_value >> 16` are
identity operations and the hue equals the plain nonnegative remainder
`hash_value mod 360`. -/
theorem hash_accumulator_nonneg_abs_identity :
    (∀ l : List Char, 0 ≤ hashAccL l) ∧
    ∀ s : String,
      |hashAcc s| = hashAcc s ∧
      |hashAcc s % 360| = hashAcc s % 360 ∧
      |Int.fdiv (hashAcc s) (2 ^ 8)| = Int.fdiv (hashAcc s) (2 ^ 8) ∧
      |Int.fdiv (hashAcc s) (2 ^ 16)| = Int.fdiv (hashAcc s) (2 ^ 16) ∧
      hueOf s = hashAcc s % 360 := by
  refine ⟨hashAccL_nonneg, fun s => ?_⟩
  have h0 : 0 ≤ hashAcc s := hashAcc_nonneg s
  have hm : 0 ≤ hashAcc s % 360 := Int.emod_nonneg _ (by norm_num)
  have h8 : 0 ≤ Int.fdiv (hashAcc s) (2 ^ 8) := by
    rw [Int.fdiv_eq_ediv _ (by norm_num)]
    exact Int.ediv_nonneg h0 (by norm_num)
  have h16 : 0 ≤ Int.fdiv (hashAcc s) (2 ^ 16) := by
    rw [Int.fdiv_eq_ediv _ (by norm_num)]
    exact Int.ediv_nonneg h0 (by norm_num)
  exact ⟨abs_of_nonneg h0, abs_of_nonneg hm, abs_of_nonneg h8, abs_of_nonneg h16,
    abs_of_nonneg hm⟩

/-- C1 (evidence of the divergence): on the 6-character identifier
`"zzzzzz"` the Python hash accumulator (unbounded integers, no masking)
holds `3609181632`, while a 32-bit signed two's-complement accumulator —
the semantics the spec mandates — would hold `-685785664`; the two
disagree, so the code's hash step does not wrap as a 32-bit signed
integer. -/
theorem hash_differs_from_32bit_accumulator :
    hashAcc "zzzzzz" = 3609181632 ∧ hashAcc32 "zzzzzz" = -685785664 ∧
    hashAcc "zzzzzz" ≠ hashAcc32 "zzzzzz" := by
  refine ⟨by decide, by decide, by decide⟩

/-! ## Quantisation: `int()` against floor/truncation -/

theorem pyInt_eq_floor {q : ℚ} (hq : 0 ≤ q) : pyInt q = ⌊q⌋ := by
  have hnum : 0 ≤ q.num := Rat.num_nonneg.mpr hq
  rw [pyInt, Int.tdiv_eq_ediv hnum (Int.natCast_nonneg _), Rat.floor_def]

theorem pyInt_eq_truncTowardZero (q : ℚ) : pyInt q = truncTowardZero q := by
  rcases le_or_lt 0 q with hq | hq
  · rw [pyInt_eq_floor hq, truncTowardZero, if_pos hq]
  · have hq' : 0 ≤ -q := by linarith
    have hneg : pyInt q = -pyInt (-q) := by
      rw [pyInt, pyInt, Rat.neg_num, Rat.neg_den, Int.neg_tdiv, neg_neg]
    rw [truncTowardZero, if_neg (not_le.mpr hq), hneg, pyInt_eq_floor hq',
      Int.floor_neg, neg_neg]

/-! ## The worked example for identifier `"1"` -/

theorem chroma_at_one : chroma 65 55 = 117 / 200 := by
  unfold chroma
  norm_num [abs_of_nonneg]

theorem xval_at_one : xval 49 (117 / 200) = 1911 / 4000 := by
  unfold xval pyFmod
  norm_num [Int.floor_eq_zero_iff, Set.mem_Ico, abs_of_nonpos]

theorem mval_at_one : mval 55 (117 / 200) = 103 / 400 := by
  unfold mval
  norm_num

theorem rgbOf_one : rgbOf "1" = (214, 187, 65) := by
  have hue : hueOf "1" = 49 := by decide
  have sat : satOf "1" = 65 := by decide
  have lig : lightOf "1" = 55 := by decide
  rw [rgbOf, hue, sat, lig]
  simp only [hslToRgb, basePoint, chroma_at_one, xval_at_one, mval_at_one]
  norm_num
  refine ⟨?_, ?_, ?_⟩ <;>
    rw [channel, pyInt_eq_floor (by norm_num)] <;>
    norm_num [Int.floor_eq_iff]

theorem gen_one : generate_color_for_product "1" = "#D6BB41" := by
  rw [generate_color_for_product, rgbOf_one]
  decide

/-- C2: the worked example — identifier `"1"` (code point 49) gives hash
49, hue 49, saturation 65, lightness 55, and the fixed color string
`"#D6BB41"`. -/
theorem worked_example_identifier_one :
    hashAcc "1" = 49 ∧ hueOf "1" = 49 ∧ satOf "1" = 65 ∧ lightOf "1" = 55 ∧
    colorFor "1" = "#D6BB41" := by
  refine ⟨by decide, by decide, by decide, by decide, gen_one⟩

/-! ## Range bounds of the intermediate values and channels -/

theorem hueOf_bounds (s : String) : 0 ≤ hueOf s ∧ hueOf s ≤ 359 := by
  have h1 := Int.emod_nonneg (hashAcc s) (show (360 : Int) ≠ 0 by norm_num)
  have h2 : hashAcc s % 360 < 360 := Int.emod_lt_of_pos _ (by norm_num)
  rw [hueOf, abs_of_nonneg h1]
  omega

theorem satOf_bounds (s : String) : 65 ≤ satOf s ∧ satOf s ≤ 84 := by
  have h1 := Int.emod_nonneg |Int.fdiv (hashAcc s) (2 ^ 8)| (show (20 : Int) ≠ 0 by norm_num)
  have h2 : |Int.fdiv (hashAcc s) (2 ^ 8)| % 20 < 20 := Int.emod_lt_of_pos _ (by norm_num)
  rw [satOf]
  omega

theorem lightOf_bounds (s : String) : 55 ≤ lightOf s ∧ lightOf s ≤ 69 := by
  have h1 := Int.emod_nonneg |Int.fdiv (hashAcc s) (2 ^ 16)| (show (15 : Int) ≠ 0 by norm_num)
  have h2 : |Int.fdiv (hashAcc s) (2 ^ 16)| % 15 < 15 := Int.emod_lt_of_pos _ (by norm_num)
  rw [lightOf]
  omega

theorem pyFmod_two_nonneg (a : ℚ) : 0 ≤ pyFmod a 2 := by
  have h : pyFmod a 2 = 2 * Int.fract (a / 2) := by
    unfold pyFmod Int.fract
    ring
  have := Int.fract_nonneg (a / 2)
  rw [h]
  linarith

theorem pyFmod_two_lt (a : ℚ) : pyFmod a 2 < 2 := by
  have h : pyFmod a 2 = 2 * Int.fract (a / 2) := by
    unfold pyFmod Int.fract
    ring
  have := Int.fract_lt_one (a / 2)
  rw [h]
  linarith

theorem hslToRgb_channel_bounds (h : Int) {s l : Int}
    (hs1 : 65 ≤ s) (hs2 : s ≤ 84) (hl1 : 55 ≤ l) (hl2 : l ≤ 69) :
    (0 ≤ (hslToRgb h s l).1 ∧ (hslToRgb h s l).1 ≤ 255) ∧
    (0 ≤ (hslToRgb h s l).2.1 ∧ (hslToRgb h s l).2.1 ≤ 255) ∧
    (0 ≤ (hslToRgb h s l).2.2 ∧ (hslToRgb h s l).2.2 ≤ 255) := by
  have hS1 : (65 : ℚ) ≤ (s : ℚ) := by exact_mod_cast hs1
  have hS2 : (s : ℚ) ≤ 84 := by exact_mod_cast hs2
  have hL1 : (55 : ℚ) ≤ (l : ℚ) := by exact_mod_cast hl1
  have hL2 : (l : ℚ) ≤ 69 := by exact_mod_cast hl2
  have hcval : chroma s l = (2 - 2 * (l : ℚ) / 100) * (s : ℚ) / 100 := by
    rw [chroma, abs_of_nonneg (by linarith)]
    ring
  have hc0 : 0 ≤ chroma s l := by
    rw [hcval]
    apply div_nonneg (mul_nonneg (by linarith) (by linarith)) (by norm_num)
  have ht0 : 0 ≤ 1 - |pyFmod ((h : ℚ) / 60) 2 - 1| := by
    have h1 := pyFmod_two_nonneg ((h : ℚ) / 60)
    have h2 := pyFmod_two_lt ((h : ℚ) / 60)
    have habs : |pyFmod ((h : ℚ) / 60) 2 - 1| ≤ 1 :=
      abs_le.mpr ⟨by linarith, by linarith⟩
    linarith
  have ht1 : 1 - |pyFmod ((h : ℚ) / 60) 2 - 1| ≤ 1 := by
    have := abs_nonneg (pyFmod ((h : ℚ) / 60) 2 - 1)
    linarith
  have hx0 : 0 ≤ xval h (chroma s l) := mul_nonneg hc0 ht0
  have hxc : xval h (chroma s l) ≤ chroma s l := by
    rw [xval]
    nlinarith
  have hm0 : 0 ≤ mval l (chroma s l) := by
    rw [mval, hcval]
    nlinarith [mul_nonneg (by linarith : (0 : ℚ) ≤ 84 - (s : ℚ))
      (by linarith : (0 : ℚ) ≤ 200 - 2 * (l : ℚ))]
  have hcm : chroma s l + mval l (chroma s l) ≤ 1 := by
    rw [mval, hcval]
    nlinarith [mul_nonneg (by linarith : (0 : ℚ) ≤ 100 - (s : ℚ))
      (by linarith : (0 : ℚ) ≤ 200 - 2 * (l : ℚ))]
  have hch : ∀ comp : ℚ, 0 ≤ comp → comp ≤ chroma s l →
      0 ≤ channel comp (mval l (chroma s l)) ∧
      channel comp (mval l (chroma s l)) ≤ 255 := by
    intro comp h0 hcomp
    have hq0 : (0 : ℚ) ≤ (comp + mval l (chroma s l)) * 255 := by nlinarith
    have hq1 : (comp + mval l (chroma s l)) * 255 ≤ 255 := by nlinarith
    rw [channel, pyInt_eq_floor hq0]
    refine ⟨Int.floor_nonneg.mpr hq0, ?_⟩
    have h255 : (⌊(255 : ℚ)⌋ : Int) = 255 := by norm_num
    exact le_trans (Int.floor_mono hq1) (le_of_eq h255)
  simp only [hslToRgb, basePoint]
  split_ifs
  · exact ⟨hch _ hc0 le_rfl, hch _ hx0 hxc, hch _ le_rfl hc0⟩
  · exact ⟨hch _ hx0 hxc, hch _ hc0 le_rfl, hch _ le_rfl hc0⟩
  · exact ⟨hch _ le_rfl hc0, hch _ hc0 le_rfl, hch _ hx0 hxc⟩
  · exact ⟨hch _ le_rfl hc0, hch _ hx0 hxc, hch _ hc0 le_rfl⟩
  · exact ⟨hch _ hx0 hxc, hch _ le_rfl hc0, hch _ hc0 le_rfl⟩
  · exact ⟨hch _ hc0 le_rfl, hch _ le_rfl hc0, hch _ hx0 hxc⟩

theorem hexDigit_lt_mem : ∀ n : Nat, n < 16 → hexDigit n ∈ hexUpperChars := by
  decide

theorem fmt02X_mem {v : Int} (h0 : 0 ≤ v) (h255 : v ≤ 255) :
    ∀ ch ∈ fmt02X v, ch ∈ hexUpperChars := by
  have h1 : v.toNat / 16 < 16 := by omega
  have h2 : v.toNat % 16 < 16 := Nat.mod_lt _ (by norm_num)
  intro ch hch
  simp only [fmt02X, List.mem_cons, List.not_mem_nil, or_false] at hch
  rcases hch with rfl | rfl
  · exact hexDigit_lt_mem _ h1
  · exact hexDigit_lt_mem _ h2

/-- C3: for every identifier the intermediate hue/saturation/lightness lie
in [0,359], [65,84], [55,69], each RGB channel is an integer in [0,255],
and the returned color is `'#'` followed by six uppercase hexadecimal
digits (a 7-character string, channels zero-padded to 2 digits). -/
theorem colorFor_ranges_and_format (s : String) :
    (0 ≤ hueOf s ∧ hueOf s ≤ 359) ∧
    (65 ≤ satOf s ∧ satOf s ≤ 84) ∧
    (55 ≤ lightOf s ∧ lightOf s ≤ 69) ∧
    (0 ≤ (rgbOf s).1 ∧ (rgbOf s).1 ≤ 255) ∧
    (0 ≤ (rgbOf s).2.1 ∧ (rgbOf s).2.1 ≤ 255) ∧
    (0 ≤ (rgbOf s).2.2 ∧ (rgbOf s).2.2 ≤ 255) ∧
    (colorFor s).length = 7 ∧
    (colorFor s).data.head? = some '#' ∧
    ∀ ch ∈ (colorFor s).data.tail, ch ∈ hexUpperChars := by
  obtain ⟨hs1, hs2⟩ := satOf_bounds s
  obtain ⟨hl1, hl2⟩ := lightOf_bounds s
  have hrgb := hslToRgb_channel_bounds (hueOf s) hs1 hs2 hl1 hl2
  rcases hr : rgbOf s with ⟨r, g, b⟩
  have hb := hrgb
  rw [show hslToRgb (hueOf s) (satOf s) (lightOf s) = (r, g, b) from hr] at hb
  have hcolor : colorFor s = String.mk ('#' :: (fmt02X r ++ fmt02X g ++ fmt02X b)) := by
    rw [colorFor, generate_color_for_product, hr]
  have htail : (colorFor s).data.tail = fmt02X r ++ fmt02X g ++ fmt02X b := by
    rw [hcolor]
    rfl
  refine ⟨hueOf_bounds s, ⟨hs1, hs2⟩, ⟨hl1, hl2⟩, hb.1, hb.2.1, hb.2.2,
    ?_, ?_, ?_⟩
  · rw [hcolor]
    rfl
  · rw [hcolor]
    rfl
  · rw [htail]
    intro ch hch
    rcases List.mem_append.mp hch with hch' | hch'
    · rcases List.mem_append.mp hch' with hch'' | hch''
      · exact fmt02X_mem hb.1.1 hb.1.2 ch hch''
      · exact fmt02X_mem hb.2.1.1 hb.2.1.2 ch hch''
    · exact fmt02X_mem hb.2.2.1 hb.2.2.2 ch hch'

/-- The quantisation step of `hslToRgb`, characterised by the spec's
"truncated toward zero" conversion. -/
theorem hslToRgb_eq_trunc (h s l : Int) :
    hslToRgb h s l =
      (truncTowardZero (((basePoint h (chroma s l) (xval h (chroma s l))).1 +
          mval l (chroma s l)) * 255),
       truncTowardZero (((basePoint h (chroma s l) (xval h (chroma s l))).2.1 +
          mval l (chroma s l)) * 255),
       truncTowardZero (((basePoint h (chroma s l) (xval h (chroma s l))).2.2 +
          mval l (chroma s l)) * 255)) := by
  rcases hb : basePoint h (chroma s l) (xval h (chroma s l)) with ⟨r', g', b'⟩
  simp only [hslToRgb, hb, channel, pyInt_eq_truncTowardZero]

/-- C4: every final RGB channel of the engine equals
`(component + m) * 255` truncated toward zero (not rounded to nearest);
on identifier `"1"` the red channel is 214 while round-to-nearest would
give 215, so the two conversions are observably different. -/
theorem channels_truncated_not_rounded :
    (∀ s : String,
      rgbOf s =
        (truncTowardZero
            (((basePoint (hueOf s) (chroma (satOf s) (lightOf s))
                (xval (hueOf s) (chroma (satOf s) (lightOf s)))).1 +
              mval (lightOf s) (chroma (satOf s) (lightOf s))) * 255),
         truncTowardZero
            (((basePoint (hueOf s) (chroma (satOf s) (lightOf s))
                (xval (hueOf s) (chroma (satOf s) (lightOf s)))).2.1 +
              mval (lightOf s) (chroma (satOf s) (lightOf s))) * 255),
         truncTowardZero
            (((basePoint (hueOf s) (chroma (satOf s) (lightOf s))
                (xval (hueOf s) (chroma (satOf s) (lightOf s)))).2.2 +
              mval (lightOf s) (chroma (satOf s) (lightOf s))) * 255))) ∧
    (rgbOf "1").1 = 214 ∧
    roundNearest
      (((basePoint (hueOf "1") (chroma (satOf "1") (lightOf "1"))
          (xval (hueOf "1") (chroma (satOf "1") (lightOf "1")))).1 +
        mval (lightOf "1") (chroma (satOf "1") (lightOf "1"))) * 255) = 215 := by
  refine ⟨fun s => hslToRgb_eq_trunc (hueOf s) (satOf s) (lightOf s), ?_, ?_⟩
  · rw [rgbOf_one]
  · rw [show hueOf "1" = 49 by decide, show satOf "1" = 65 by decide,
      show lightOf "1" = 55 by decide, chroma_at_one, xval_at_one, mval_at_one]
    rw [show basePoint 49 (117 / 200) (1911 / 4000) = (117 / 200, 1911 / 4000, 0) by
      simp [basePoint]]
    unfold roundNearest
    norm_num [Int.floor_eq_iff]

/-- C5: the engine is total — the empty string hashes to `h = 0` and, for
every string input, the failure-explicit embedding `colorForE` reaches no
error branch and returns exactly the color `colorFor` computes. -/
theorem colorFor_total :
    hashAcc "" = 0 ∧ ∀ s : String, colorForE s = Except.ok (colorFor s) :=
  ⟨rfl, fun _ => rfl⟩

/-! ## Dictionary (association-list) lemmas -/

theorem dictGet_cons_pos {p : String × String} {r : Row} {k : String}
    (h : p.1 = k) : dictGet (p :: r) k = some p.2 := by
  simp [dictGet, List.find?_cons_of_pos, h]

theorem dictGet_cons_neg {p : String × String} {r : Row} {k : String}
    (h : p.1 ≠ k) : dictGet (p :: r) k = dictGet r k := by
  simp [dictGet, List.find?_cons_of_neg, h]

theorem dictGet_eq_some_mem {row : Row} {k v : String}
    (h : dictGet row k = some v) : (k, v) ∈ row := by
  unfold dictGet at h
  cases hf : row.find? (fun p => p.1 == k) with
  | none => rw [hf] at h; cases h
  | some p =>
    rw [hf] at h
    have hm := List.mem_of_find?_eq_some hf
    have hk := List.find?_some hf
    obtain ⟨a, b⟩ := p
    have ha : a = k := by simpa using hk
    have hb : b = v := by simpa using h
    rw [← ha, ← hb]
    exact hm

theorem mem_keys_dictGet {row : Row} {k : String} (h : k ∈ row.map Prod.fst) :
    ∃ v, dictGet row k = some v := by
  induction row with
  | nil => simp at h
  | cons p r ih =>
    by_cases hpk : p.1 = k
    · exact ⟨p.2, dictGet_cons_pos hpk⟩
    · have h' : k ∈ r.map Prod.fst := by
        simp only [List.map_cons, List.mem_cons] at h
        rcases h with h | h
        · exact absurd h.symm hpk
        · exact h
      obtain ⟨v, hv⟩ := ih h'
      exact ⟨v, by rw [dictGet_cons_neg hpk]; exact hv⟩

theorem dictGet_dictSet_self (row : Row) (k v : String) :
    dictGet (dictSet row k v) k = some v := by
  induction row with
  | nil => exact dictGet_cons_pos rfl
  | cons p r ih =>
    unfold dictSet
    by_cases h : p.1 = k
    · rw [if_pos (by simpa using h)]
      exact dictGet_cons_pos rfl
    · rw [if_neg (by simpa using h)]
      rw [dictGet_cons_neg h]
      exact ih

theorem dictGet_dictSet_ne (row : Row) {k k' : String} (hne : k' ≠ k)
    (v : String) : dictGet (dictSet row k v) k' = dictGet row k' := by
  induction row with
  | nil =>
    show dictGet [(k, v)] k' = dictGet [] k'
    rw [dictGet_cons_neg (Ne.symm hne)]
  | cons p r ih =>
    unfold dictSet
    by_cases h : p.1 = k
    · rw [if_pos (by simpa using h)]
      rw [dictGet_cons_neg (Ne.symm hne)]
      rw [dictGet_cons_neg (fun hp => hne (h.symm.trans hp).symm)]
    · rw [if_neg (by simpa using h)]
      by_cases h2 : p.1 = k'
      · rw [dictGet_cons_pos h2, dictGet_cons_pos h2]
      · rw [dictGet_cons_neg h2, dictGet_cons_neg h2]
        exact ih

theorem mem_dictSet {row : Row} {k v : String} {p : String × String}
    (h : p ∈ dictSet row k v) : p = (k, v) ∨ p ∈ row := by
  induction row with
  | nil =>
    simp only [dictSet, List.mem_singleton] at h
    exact Or.inl h
  | cons q r ih =>
    unfold dictSet at h
    by_cases hq : q.1 = k
    · rw [if_pos (by simpa using hq)] at h
      rcases List.mem_cons.mp h with h | h
      · exact Or.inl h
      · exact Or.inr (List.mem_cons_of_mem _ h)
    · rw [if_neg (by simpa using hq)] at h
      rcases List.mem_cons.mp h with h | h
      · exact Or.inr (h ▸ List.mem_cons_self _ _)
      · rcases ih h with h | h
        · exact Or.inl h
        · exact Or.inr (List.mem_cons_of_mem _ h)

theorem dictSet_keys_new {row : Row} {k v : String}
    (h : ¬ k ∈ row.map Prod.fst) :
    (dictSet row k v).map Prod.fst = row.map Prod.fst ++ [k] := by
  induction row with
  | nil => rfl
  | cons p r ih =>
    have hp : p.1 ≠ k := by
      intro he
      exact h (by simp [he])
    unfold dictSet
    rw [if_neg (by simpa using hp)]
    have h' : ¬ k ∈ r.map Prod.fst := fun hm => h (by simp [hm])
    simp [ih h']

theorem writeRow_keys (fields : List String) (row : Row) :
    (writeRow fields row).map Prod.fst = fields := by
  show List.map Prod.fst (List.map _ fields) = fields
  rw [List.map_map]
  have hcomp : (Prod.fst ∘ fun f : String => (f, (dictGet row f).getD "")) = id := rfl
  rw [hcomp, List.map_id]

theorem dictGet_writeRow (fields : List String) (row : Row) (k : String) :
    dictGet (writeRow fields row) k =
      if k ∈ fields then some ((dictGet row k).getD "") else none := by
  induction fields with
  | nil => simp [writeRow, dictGet]
  | cons f fs ih =>
    simp only [writeRow, List.map_cons]
    by_cases h : f = k
    · rw [dictGet_cons_pos (by simpa using h)]
      simp [h]
    · rw [dictGet_cons_neg (by simpa using h)]
      have h' : ¬ k = f := fun he => h he.symm
      show dictGet (writeRow fs row) k = _
      rw [ih]
      simp [List.mem_cons, h']

/-! ## The color-assignment loop -/

/-- The memo invariant together with the row-by-row description of the
loop's output: on success every output row is its input row with a
`Color` binding for the color of its own `ProductId` appended/updated. -/
theorem assignColors_ok {rows : List Row} :
    ∀ {pc rows' pcF},
    (∀ p ∈ pc, p.2 = generate_color_for_product p.1) →
    assignColors rows pc = .ok (rows', pcF) →
    (∀ p ∈ pcF, p.2 = generate_color_for_product p.1) ∧
    List.Forall₂ (fun row row' => ∃ pid,
      dictGet row "ProductId" = some pid ∧
      row' = dictSet row "Color" (generate_color_for_product pid)) rows rows' := by
  induction rows with
  | nil =>
    intro pc rows' pcF hpc h
    simp only [assignColors] at h
    injection h with h'
    injection h' with e1 e2
    subst e1
    subst e2
    exact ⟨hpc, List.Forall₂.nil⟩
  | cons row rest ih =>
    intro pc rows' pcF hpc h
    simp only [assignColors] at h
    cases hg : dictGet row "ProductId" with
    | none => rw [hg] at h; cases h
    | some pid =>
      rw [hg] at h
      simp only at h
      set pc' := if (dictGet pc pid).isSome then pc
                 else dictSet pc pid (generate_color_for_product pid) with hpcdef
      have hpc' : ∀ p ∈ pc', p.2 = generate_color_for_product p.1 := by
        rw [hpcdef]
        split_ifs
        · exact hpc
        · intro p hp
          rcases mem_dictSet hp with rfl | hp'
          · rfl
          · exact hpc p hp'
      cases hl : dictGet pc' pid with
      | none => rw [hl] at h; cases h
      | some color =>
        rw [hl] at h
        simp only at h
        have hcolor : color = generate_color_for_product pid :=
          hpc' (pid, color) (dictGet_eq_some_mem hl)
        cases hrec : assignColors rest pc' with
        | error k => rw [hrec] at h; cases h
        | ok pr =>
          obtain ⟨rest', pcF'⟩ := pr
          rw [hrec] at h
          simp only at h
          injection h with h'
          injection h' with e1 e2
          subst e1
          subst e2
          obtain ⟨hpcF, hfa⟩ := ih hpc' hrec
          exact ⟨hpcF, List.Forall₂.cons ⟨pid, hg, by rw [hcolor]⟩ hfa⟩

/-- Structure of a successful `add_colors_to_csv`: `Color` was not a
field, the loop succeeded, and the output is the written projection of
the loop's rows under the extended schema. -/
theorem add_colors_ok {t out : Table}
    (h : add_colors_to_csv t = .ok out) :
    ¬ "Color" ∈ t.fieldnames ∧
    ∃ rows' pcF, assignColors t.rows [] = .ok (rows', pcF) ∧
      out = ⟨t.fieldnames ++ ["Color"],
             rows'.map (writeRow (t.fieldnames ++ ["Color"]))⟩ := by
  unfold add_colors_to_csv at h
  by_cases hc : "Color" ∈ t.fieldnames
  · rw [if_pos hc] at h
    cases h
  · rw [if_neg hc] at h
    refine ⟨hc, ?_⟩
    cases hac : assignColors t.rows [] with
    | error k => rw [hac] at h; cases h
    | ok pr =>
      obtain ⟨rows', pcF⟩ := pr
      rw [hac] at h
      simp only at h
      injection h with h'
      exact ⟨rows', pcF, rfl, h'.symm⟩

theorem forall₂_mem_right {α β : Type} {R : α → β → Prop} :
    ∀ {as : List α} {bs : List β}, List.Forall₂ R as bs →
      ∀ {b}, b ∈ bs → ∃ a ∈ as, R a b := by
  intro as bs h
  induction h with
  | nil => intro b hb; cases hb
  | cons hR hrest ih =>
    intro b hb
    rcases List.mem_cons.mp hb with rfl | hb'
    · exact ⟨_, List.mem_cons_self _ _, hR⟩
    · obtain ⟨a, ha, hab⟩ := ih hb'
      exact ⟨a, List.mem_cons_of_mem _ ha, hab⟩

theorem forall₂_imp_mem {α β : Type} {R R' : α → β → Prop} :
    ∀ {as : List α} {bs : List β}, List.Forall₂ R as bs →
      (∀ a ∈ as, ∀ b, R a b → R' a b) → List.Forall₂ R' as bs := by
  intro as bs h
  induction h with
  | nil => intro _; exact .nil
  | cons hR hrest ih =>
    intro himp
    exact .cons (himp _ (List.mem_cons_self _ _) _ hR)
      (ih fun a ha b hb => himp a (List.mem_cons_of_mem _ ha) b hb)

/-! ## Claims about the augmentation pipeline -/

/-- C6: a Table whose schema already contains a field named `Color` is
reported `AlreadyAugmented` and its file state is completely unchanged
(the function returns before the write), so augmenting an
already-augmented Table is a no-op. -/
theorem already_augmented_is_noop (t : Table) (h : "Color" ∈ t.fieldnames) :
    add_colors_to_csv t = .alreadyAugmented ∧ fileAfter t = t := by
  have ha : add_colors_to_csv t = .alreadyAugmented := by
    unfold add_colors_to_csv
    rw [if_pos h]
  refine ⟨ha, ?_⟩
  unfold fileAfter
  rw [ha]

theorem already_augmented_is_noop_witness :
    add_colors_to_csv sampleAugmented = .alreadyAugmented ∧
    fileAfter sampleAugmented = sampleAugmented :=
  already_augmented_is_noop sampleAugmented (by decide)

/-- C7: in a successfully augmented Table, any two rows with equal
`ProductId` values carry identical `Color` values. -/
theorem same_product_same_color {t out : Table} (hwf : t.WF)
    (hok : add_colors_to_csv t = .ok out) :
    ∀ r1 ∈ out.rows, ∀ r2 ∈ out.rows,
      dictGet r1 "ProductId" = dictGet r2 "ProductId" →
      dictGet r1 "Color" = dictGet r2 "Color" := by
  obtain ⟨hnc, rows', pcF, hac, hout⟩ := add_colors_ok hok
  obtain ⟨-, hfa⟩ := assignColors_ok (by intro p hp; cases hp) hac
  subst hout
  intro r1 hr1 r2 hr2 hpid
  simp only [List.mem_map] at hr1 hr2
  obtain ⟨a1, ha1, rfl⟩ := hr1
  obtain ⟨a2, ha2, rfl⟩ := hr2
  obtain ⟨row1, hrow1, pid1, hg1, rfl⟩ := forall₂_mem_right hfa ha1
  obtain ⟨row2, hrow2, pid2, hg2, rfl⟩ := forall₂_mem_right hfa ha2
  have hPidKey1 : "ProductId" ∈ t.fieldnames := by
    have hmem : "ProductId" ∈ row1.map Prod.fst :=
      List.mem_map_of_mem Prod.fst (dictGet_eq_some_mem hg1)
    rwa [hwf.2 row1 hrow1] at hmem
  have hfne : ("ProductId" : String) ≠ "Color" := by decide
  have hPid1 : dictGet (writeRow (t.fieldnames ++ ["Color"])
      (dictSet row1 "Color" (generate_color_for_product pid1))) "ProductId" =
      some pid1 := by
    rw [dictGet_writeRow, if_pos (List.mem_append_left _ hPidKey1),
      dictGet_dictSet_ne _ hfne _, hg1]
    rfl
  have hPid2 : dictGet (writeRow (t.fieldnames ++ ["Color"])
      (dictSet row2 "Color" (generate_color_for_product pid2))) "ProductId" =
      some pid2 := by
    rw [dictGet_writeRow, if_pos (List.mem_append_left _ hPidKey1),
      dictGet_dictSet_ne _ hfne _, hg2]
    rfl
  have hColKey : ("Color" : String) ∈ t.fieldnames ++ ["Color"] :=
    List.mem_append_right _ (by simp)
  have hCol1 : dictGet (writeRow (t.fieldnames ++ ["Color"])
      (dictSet row1 "Color" (generate_color_for_product pid1))) "Color" =
      some (generate_color_for_product pid1) := by
    rw [dictGet_writeRow, if_pos hColKey, dictGet_dictSet_self]
    rfl
  have hCol2 : dictGet (writeRow (t.fieldnames ++ ["Color"])
      (dictSet row2 "Color" (generate_color_for_product pid2))) "Color" =
      some (generate_color_for_product pid2) := by
    rw [dictGet_writeRow, if_pos hColKey, dictGet_dictSet_self]
    rfl
  rw [hPid1, hPid2] at hpid
  injection hpid with hpe
  rw [hCol1, hCol2, hpe]

theorem add_sampleTwoRows :
    add_colors_to_csv sampleTwoRows = .ok sampleTwoRowsOut := by
  have hgen := gen_one
  simp [add_colors_to_csv, assignColors, dictGet, dictSet, writeRow,
    sampleTwoRows, sampleTwoRowsOut, hgen]

theorem same_product_same_color_witness :
    sampleTwoRows.WF ∧
    add_colors_to_csv sampleTwoRows = .ok sampleTwoRowsOut ∧
    ∀ r1 ∈ sampleTwoRowsOut.rows, ∀ r2 ∈ sampleTwoRowsOut.rows,
      dictGet r1 "ProductId" = dictGet r2 "ProductId" →
      dictGet r1 "Color" = dictGet r2 "Color" :=
  ⟨by decide, add_sampleTwoRows,
   same_product_same_color (by decide) add_sampleTwoRows⟩

/-- C8: a successful augmentation appends exactly one trailing `Color`
field to the schema, keeps the number and order of rows, keeps every
row's keys equal to the extended schema, and leaves the value of every
original field of every row unchanged. -/
theorem augment_preserves_schema_and_rows {t out : Table} (hwf : t.WF)
    (hok : add_colors_to_csv t = .ok out) :
    out.fieldnames = t.fieldnames ++ ["Color"] ∧
    out.rows.length = t.rows.length ∧
    List.Forall₂ (fun orig new =>
      new.map Prod.fst = t.fieldnames ++ ["Color"] ∧
      ∀ f ∈ t.fieldnames, dictGet new f = dictGet orig f) t.rows out.rows := by
  obtain ⟨hnc, rows', pcF, hac, hout⟩ := add_colors_ok hok
  obtain ⟨-, hfa⟩ := assignColors_ok (by intro p hp; cases hp) hac
  subst hout
  refine ⟨rfl, ?_, ?_⟩
  · simp only [List.length_map]
    exact (List.Forall₂.length_eq hfa).symm
  · rw [List.forall₂_map_right_iff]
    refine forall₂_imp_mem hfa ?_
    intro orig horig new hR
    obtain ⟨pid, hg, rfl⟩ := hR
    refine ⟨writeRow_keys _ _, ?_⟩
    intro f hf
    have hfne : f ≠ "Color" := fun he => hnc (he ▸ hf)
    rw [dictGet_writeRow, if_pos (List.mem_append_left _ hf),
      dictGet_dictSet_ne _ hfne _]
    have hfk : f ∈ orig.map Prod.fst := by
      rw [hwf.2 orig horig]
      exact hf
    obtain ⟨v, hv⟩ := mem_keys_dictGet hfk
    rw [hv]
    rfl

theorem augment_preserves_schema_and_rows_witness :
    sampleTwoRows.WF ∧
    add_colors_to_csv sampleTwoRows = .ok sampleTwoRowsOut ∧
    (sampleTwoRowsOut.fieldnames = sampleTwoRows.fieldnames ++ ["Color"] ∧
     sampleTwoRowsOut.rows.length = sampleTwoRows.rows.length ∧
     List.Forall₂ (fun orig new =>
       new.map Prod.fst = sampleTwoRows.fieldnames ++ ["Color"] ∧
       ∀ f ∈ sampleTwoRows.fieldnames, dictGet new f = dictGet orig f)
       sampleTwoRows.rows sampleTwoRowsOut.rows) :=
  ⟨by decide, add_sampleTwoRows,
   augment_preserves_schema_and_rows (by decide) add_sampleTwoRows⟩

theorem add_sampleOneRow :
    add_colors_to_csv sampleOneRow = .ok sampleOneRowOut := by
  have hgen := gen_one
  simp [add_colors_to_csv, assignColors, dictGet, dictSet, writeRow,
    sampleOneRow, sampleOneRowOut, hgen]

/-- C9 (counterexample): in the batch `[sampleNoProductId, sampleOneRow]`
the first table's rows lack `ProductId`; the run aborts with the
propagated `KeyError`, leaving the *other* table unprocessed (its file
still equals the unaugmented `sampleOneRow`, while actually processing it
would change it) — and a table with no rows is augmented normally rather
than being reported as malformed and left unmodified.  This refutes the
claim that such inputs are non-fatal for the batch and that empty tables
are rejected. -/
theorem malformed_not_skipped_counterexample :
    runBatch [sampleNoProductId, sampleOneRow] =
      ([sampleNoProductId, sampleOneRow], some "ProductId") ∧
    fileAfter sampleOneRow ≠ sampleOneRow ∧
    add_colors_to_csv sampleNoRows = .ok ⟨["ProductId", "Color"], []⟩ := by
  refine ⟨by decide, ?_, by decide⟩
  unfold fileAfter
  rw [add_sampleOneRow]
  decide

/-- C9 (amended): a table containing a row that lacks `ProductId` raises
an uncaught `KeyError`: that table's file is left unmodified, but the
batch aborts — the failing table and every later one keep their current
state, so the condition is fatal for the whole batch, not per-table; and
a table with a header but no rows is not an error: it is augmented
normally, gaining only the `Color` field. -/
theorem keyError_aborts_batch :
    (∀ t k, add_colors_to_csv t = .keyError k →
      fileAfter t = t ∧
      ∀ rest, runBatch (t :: rest) = (t :: rest, some k)) ∧
    (∀ t, ¬ "Color" ∈ t.fieldnames → t.rows = [] →
      add_colors_to_csv t = .ok ⟨t.fieldnames ++ ["Color"], []⟩) := by
  constructor
  · intro t k hk
    constructor
    · unfold fileAfter
      rw [hk]
    · intro rest
      unfold runBatch
      rw [hk]
  · intro t hc hr
    unfold add_colors_to_csv
    rw [if_neg hc, hr]
    rfl

theorem keyError_aborts_batch_witness :
    (fileAfter sampleNoProductId = sampleNoProductId ∧
     runBatch [sampleNoProductId, sampleOneRow] =
       ([sampleNoProductId, sampleOneRow], some "ProductId")) ∧
    add_colors_to_csv sampleNoRows = .ok ⟨["ProductId", "Color"], []⟩ := by
  have h := keyError_aborts_batch
  have h1 := h.1 sampleNoProductId "ProductId" (by decide)
  exact ⟨⟨h1.1, h1.2 [sampleOneRow]⟩, h.2 sampleNoRows (by decide) (by decide)⟩
